import Mathlib

/-!
Verification of the board-rendering core of the `roetig-bingo` repository
(`src/board_renderer.rs`), as a shallow embedding in Lean 4.

Modelling conventions:
* Rust `u32` arithmetic is embedded as natural-number arithmetic reduced
  modulo 2^32 at every `u32` operation (`u32`), matching release-mode
  wrapping semantics.
* Rust `f32` quantities (advance widths, line heights, coverage values,
  pen positions) are embedded as rationals `ℚ`; the algorithms under
  verification only add and compare these quantities.
* The `rusttype` font library is foreign code: a loaded font is abstracted
  as a `FontModel` supplying exactly what `TextPainter` reads from it
  (word advance width, line height, ascent, and the positioned glyph list
  for a laid-out line).  A rasterized glyph is abstracted as its pixel
  bounding box plus a coverage function, which is what `Glyph::draw`
  exposes to the per-pixel callback.
* Operations that can panic in Rust (`RgbImage::put_pixel`,
  `get_pixel_mut`, slice indexing `elements[idx]`) are embedded as
  `Option`-valued operations returning `none` exactly when the Rust code
  would panic; `assert_eq!` failure is embedded as the `DimensionMismatch`
  error, matching the failure surface named by the specification.
* File output (`File::create`, `write_to`) is out of scope; `render`
  returns the finished pixel buffer.
-/

/-- 2^32, the modulus of Rust `u32` arithmetic. -/
def U32 : ℕ := 4294967296

/-- One Rust `u32` operation result: reduce modulo 2^32 (release-mode wrapping). -/
def u32 (x : ℕ) : ℕ := x % U32

/-- An RGB pixel, one `image::Rgb<u8>` value; channels are naturals (< 256 in any
reachable buffer). -/
structure Rgb where
  r : ℕ
  g : ℕ
  b : ℕ
deriving DecidableEq

/-- The pixel buffer, one `image::RgbImage`: a width, a height, and the pixel
contents as a function (row-major storage is abstracted to the indexing
function). -/
structure RgbImage where
  width : ℕ
  height : ℕ
  pix : ℕ → ℕ → Rgb

/-- Background color `Rgb([245, 245, 245])` from `render_board_to_png`. -/
def bgColor : Rgb := ⟨245, 245, 245⟩

/-- Grid line color `Rgb([30, 30, 30])` from `render_board_to_png`. -/
def lineColor : Rgb := ⟨30, 30, 30⟩

/-- Text color `Rgb([20, 20, 20])` from `render_board_to_png`. -/
def txtColor : Rgb := ⟨20, 20, 20⟩

/-- `RgbImage::from_pixel(w, h, c)`: a buffer of the given size filled with one color. -/
def mkImage (w h : ℕ) (c : Rgb) : RgbImage := ⟨w, h, fun _ _ => c⟩

/-- Reading a pixel (`get_pixel_mut` read half): panics (`none`) when out of bounds. -/
def getPixel (img : RgbImage) (x y : ℕ) : Option Rgb :=
  if x < img.width ∧ y < img.height then some (img.pix x y) else none

/-- Pure in-place pixel store, no bounds behaviour. -/
def setPix (img : RgbImage) (x y : ℕ) (c : Rgb) : RgbImage :=
  { img with pix := fun a b => if a = x ∧ b = y then c else img.pix a b }

/-- `RgbImage::put_pixel` (also the `get_pixel_mut` write half): panics (`none`)
when out of bounds, otherwise stores the pixel. -/
def putPixel (img : RgbImage) (x y : ℕ) (c : Rgb) : Option RgbImage :=
  if x < img.width ∧ y < img.height then some (setPix img x y c) else none

/-- Rust `as u8` applied to a nonnegative-range f32 expression: truncate and
saturate into `[0, 255]` (for negative inputs both truncation and flooring
saturate to 0, so `Int.toNat ∘ floor` is exact). -/
def u8cast (q : ℚ) : ℕ := min 255 (⌊q⌋.toNat)

/-- The per-channel alpha blend from `TextPainter::draw_line`:
`dst[i] = ((dst[i] as f32)*(1.0 - a) + (color[i] as f32)*a) as u8` on each of
the three channels independently. -/
def blendRgb (dst color : Rgb) (a : ℚ) : Rgb :=
  ⟨u8cast ((dst.r : ℚ) * (1 - a) + (color.r : ℚ) * a),
   u8cast ((dst.g : ℚ) * (1 - a) + (color.g : ℚ) * a),
   u8cast ((dst.b : ℚ) * (1 - a) + (color.b : ℚ) * a)⟩

/-- A positioned, rasterizable glyph as `rusttype` presents it to
`TextPainter::draw_line`: the pixel bounding box (min corner `bbMinX, bbMinY`,
extent `bbW × bbH`) and the antialiasing coverage value for each point of that
box.  The bounding box already accounts for the glyph position and baseline. -/
structure Glyph where
  bbMinX : ℤ
  bbMinY : ℤ
  bbW : ℕ
  bbH : ℕ
  cov : ℕ → ℕ → ℚ

/-- Blend one coverage sample into the buffer at an already-bounds-checked
position: read `get_pixel_mut`, blend, store (panics — `none` — if out of
bounds, which the caller's guard prevents). -/
def blendAt (img : RgbImage) (x y : ℕ) (color : Rgb) (a : ℚ) : Option RgbImage :=
  match getPixel img x y with
  | none => none
  | some dst => putPixel img x y (blendRgb dst color a)

/-- The per-pixel callback of `glyph.draw(|x, y, v| ...)` in
`TextPainter::draw_line`: skip coverage below `0.05`, translate the local
bounding-box coordinate by `(left, top)` and the box's min corner, then blend
only when the resulting global coordinate is inside the buffer. -/
def drawCovPixel (left top : ℕ) (bbx bby : ℤ) (color : Rgb) (img : RgbImage)
    (x y : ℕ) (v : ℚ) : Option RgbImage :=
  if v < 1/20 then some img
  else
    let gx : ℤ := (left : ℤ) + (x : ℤ) + bbx
    let gy : ℤ := (top : ℤ) + (y : ℤ) + bby
    if 0 ≤ gx ∧ 0 ≤ gy ∧ gx.toNat < img.width ∧ gy.toNat < img.height then
      blendAt img gx.toNat gy.toNat color v
    else some img

/-- Total counterpart of `drawCovPixel` (the callback never actually panics
because the bounds guard precedes the pixel access; `drawCovPixel_eq` below
proves the two agree). -/
def applyCov (left top : ℕ) (bbx bby : ℤ) (color : Rgb) (img : RgbImage)
    (x y : ℕ) (v : ℚ) : RgbImage :=
  if v < 1/20 then img
  else
    let gx : ℤ := (left : ℤ) + (x : ℤ) + bbx
    let gy : ℤ := (top : ℤ) + (y : ℤ) + bby
    if 0 ≤ gx ∧ 0 ≤ gy ∧ gx.toNat < img.width ∧ gy.toNat < img.height then
      setPix img gx.toNat gy.toNat (blendRgb (img.pix gx.toNat gy.toNat) color v)
    else img

/-- The sample points of a glyph's bounding box, as enumerated by
`glyph.draw` (enumeration order is irrelevant to every property proved). -/
def glyphCoords (g : Glyph) : List (ℕ × ℕ) :=
  (List.range g.bbW).flatMap fun x => (List.range g.bbH).map fun y => (x, y)

/-- Rasterize one glyph onto the buffer: run the per-pixel callback over every
sample of the bounding box, threading the possibility of an out-of-bounds
panic. -/
def drawGlyph (img : RgbImage) (g : Glyph) (left top : ℕ) (color : Rgb) :
    Option RgbImage :=
  List.foldlM
    (fun (im : RgbImage) (p : ℕ × ℕ) =>
      drawCovPixel left top g.bbMinX g.bbMinY color im p.1 p.2 (g.cov p.1 p.2))
    img (glyphCoords g)

/-- Total counterpart of `drawGlyph`. -/
def drawGlyphT (img : RgbImage) (g : Glyph) (left top : ℕ) (color : Rgb) :
    RgbImage :=
  List.foldl
    (fun (im : RgbImage) (p : ℕ × ℕ) =>
      applyCov left top g.bbMinX g.bbMinY color im p.1 p.2 (g.cov p.1 p.2))
    img (glyphCoords g)

/-- `TextPainter::draw_line`: rasterize each glyph of the laid-out line in
order.  The glyph list is what `font.layout(text, scale, point(0, baseline_y))`
yields for glyphs that have a pixel bounding box (glyphs without one are
skipped by the source and so simply do not appear in the list). -/
def draw_line (img : RgbImage) (glyphs : List Glyph) (left top : ℕ)
    (color : Rgb) : Option RgbImage :=
  List.foldlM (fun (im : RgbImage) (g : Glyph) => drawGlyph im g left top color)
    img glyphs

/-- Rust `str::split_whitespace`, embedded over the character list: maximal
runs of non-whitespace characters, in order; whitespace runs (of any length,
leading or trailing included) separate words and are discarded.  `acc` holds
the current word's characters in reverse. -/
def splitWSAux : List Char → List Char → List (List Char)
  | [], acc => if acc = [] then [] else [acc.reverse]
  | c :: cs, acc =>
    if c.isWhitespace then
      if acc = [] then splitWSAux cs [] else acc.reverse :: splitWSAux cs []
    else splitWSAux cs (c :: acc)

/-- `text.split_whitespace().collect::<Vec<&str>>()`. -/
def splitWhitespace (s : String) : List String :=
  (splitWSAux s.data []).map fun l => String.mk l

/-- The text of a line the wrap loop has built by `line.push(' ');
line.push_str(w)`: the line's words joined by single spaces. -/
def lineText : List String → String
  | [] => ""
  | [w] => w
  | w :: ws => w ++ " " ++ lineText ws

/-- The tracked width of such a line under word-width function `ww`: the sum
of the word widths plus one space width (`ww " "`) per join, exactly as
`line_width` is accumulated in `TextPainter::draw_wrapped`. -/
def lineWidth (ww : String → ℚ) : List String → ℚ
  | [] => 0
  | [w] => ww w
  | w :: ws => ww w + ww " " + lineWidth ww ws

/-- The loop of `TextPainter::draw_wrapped`, returning the emitted lines (as
their word lists, joined text `lineText`) with their vertical pen offsets, in
emission order.  State: the remaining words, the current line's words, the
tracked `line_width`, and `pen_y`.  Each `draw_line` call in the source
corresponds to one emitted pair; a `break` stops all further emission. -/
def wrapLoop (ww : String → ℚ) (lh maxW maxH : ℚ) :
    List String → List String → ℚ → ℚ → List (List String × ℚ)
  | [], _, _, _ => []
  | w :: rest, line, lineW, penY =>
    let wWidth := ww w
    let extra : ℚ := if line = [] then 0 else ww " "
    if line ≠ [] ∧ maxW < lineW + extra + wWidth then
      -- flush the current line, then start a fresh line with `w`
      if maxH < penY + lh then []
      else
        if rest = [] then
          if maxH < (penY + lh) + lh then [(line, penY)]
          else [(line, penY), ([w], penY + lh)]
        else (line, penY) :: wrapLoop ww lh maxW maxH rest [w] wWidth (penY + lh)
    else
      -- append `w` to the current line (with a separating space if nonempty)
      if rest = [] then
        if maxH < penY + lh then []
        else [(line ++ [w], penY)]
      else wrapLoop ww lh maxW maxH rest (line ++ [w]) (lineW + extra + wWidth) penY

/-- The laid-out lines `TextPainter::draw_wrapped` emits for `text` inside a
box of size `max_w × max_h`: split on whitespace, then run the greedy loop
from an empty line at pen offset 0. -/
def drawWrappedLines (ww : String → ℚ) (lh maxW maxH : ℚ) (text : String) :
    List (List String × ℚ) :=
  wrapLoop ww lh maxW maxH (splitWhitespace text) [] 0 0

/-- What `TextPainter` reads from a parsed `rusttype` font at its fixed scale:
word advance width (`TextPainter::word_width`), the ceiled line height and the
ascent (from `v_metrics`), and the positioned glyph list that
`font.layout(text, scale, point(0, baseline_y))` produces for a line of text
at a baseline (only glyphs with a pixel bounding box, which are the ones
`draw_line` rasterizes). -/
structure FontModel where
  ww : String → ℚ
  lineHeight : ℚ
  ascent : ℚ
  glyphsOf : String → ℚ → List Glyph

/-- `TextPainter::draw_wrapped` including its drawing effect: rasterize each
emitted line at baseline `pen_y + ascent` via `draw_line`, threading the
buffer (and the possibility of a panic) through the emissions in order. -/
def draw_wrapped (fm : FontModel) (img : RgbImage) (text : String)
    (left top : ℕ) (max_w max_h : ℕ) (color : Rgb) : Option RgbImage :=
  List.foldlM
    (fun (im : RgbImage) (ly : List String × ℚ) =>
      draw_line im (fm.glyphsOf (lineText ly.1) (ly.2 + fm.ascent)) left top color)
    img
    (drawWrappedLines fm.ww fm.lineHeight (max_w : ℚ) (max_h : ℚ) text)

/-- A horizontal run of `put_pixel` calls:
`for x in x0..(x0+len) { img.put_pixel(x, y, c) }`. -/
def drawHRun (img : RgbImage) (y x0 len : ℕ) (c : Rgb) : Option RgbImage :=
  List.foldlM (fun (im : RgbImage) (x : ℕ) => putPixel im x y c) img
    (List.range' x0 len)

/-- A vertical run of `put_pixel` calls:
`for y in y0..(y0+len) { img.put_pixel(x, y, c) }`. -/
def drawVRun (img : RgbImage) (x y0 len : ℕ) (c : Rgb) : Option RgbImage :=
  List.foldlM (fun (im : RgbImage) (y : ℕ) => putPixel im x y c) img
    (List.range' y0 len)

/-- One iteration of the grid-line loop in `render_board_to_png` (index `i` of
`0..=board_size`): the horizontal line at `y = padding + i*cell_px` over
`x in padding..(padding+grid_w)` when `y < img_h`, then the vertical line at
the same offset over `y in padding..(padding+grid_h)` when `x < img_w`.
A Rust range `a..b` over `u32` iterates `b - a` values (none when `b ≤ a`). -/
def drawGridStep (n : ℕ) (img : RgbImage) (i : ℕ) : Option RgbImage :=
  let grid_w := u32 (n * 128)
  let img_w := u32 (grid_w + u32 (20 * 2))
  let y := u32 (20 + u32 (i * 128))
  let afterH : Option RgbImage :=
    if y < img_w then drawHRun img y 20 (u32 (20 + grid_w) - 20) lineColor
    else some img
  afterH.bind fun img1 =>
    if y < img_w then drawVRun img1 y 20 (u32 (20 + grid_w) - 20) lineColor
    else some img1

/-- The grid-line loop `for i in 0..=board_size`. -/
def drawGrid (n : ℕ) (img : RgbImage) : Option RgbImage :=
  List.foldlM (drawGridStep n) img (List.range (n + 1))

/-- The buffer width and height `grid_w + padding * 2` computed by
`render_board_to_png` (in `u32` arithmetic). -/
def imgWidth (n : ℕ) : ℕ := u32 (u32 (n * 128) + u32 (20 * 2))

/-- The freshly allocated background buffer with the grid lines drawn: the
state of `img` in `render_board_to_png` just before font loading. -/
def gridImage (n : ℕ) : Option RgbImage :=
  drawGrid n (mkImage (imgWidth n) (imgWidth n) bgColor)

/-- Raw bytes of a font file (`Vec<u8>`). -/
def FontBytes := List ℕ

/-- The override-path logic of `find_system_font_data`, over an abstract
process environment: `envFontPath` is the value of the `BINGO_FONT_PATH`
environment variable (if set), `fsRead path` is the result of
`std::fs::read(path)` (`none` on any I/O error), and `discovery` abstracts the
entire host-directory search, candidate-name and ASCII-coverage-scoring pass
(lines 17–77 of the source) that the function otherwise runs.  Per the source,
the function returns the override bytes only when the read *succeeds*; a
failed read falls through to discovery. -/
def find_system_font_data (envFontPath : Option String)
    (fsRead : String → Option FontBytes) (discovery : Option FontBytes) :
    Option FontBytes :=
  match envFontPath with
  | some path =>
    match fsRead path with
    | some bytes => some bytes
    | none => discovery
  | none => discovery

/-- The failure surface of the render call. `DimensionMismatch` is the
`assert_eq!` on the element count; `FontNotFound` is
`find_system_font_data().ok_or("No system font found for rendering")`;
`InvalidFontData` is `TextPainter::new`'s `"Invalid font data"` error;
`Panic` stands for any other Rust panic (out-of-bounds pixel write or slice
index). -/
inductive RenderError where
  | DimensionMismatch
  | FontNotFound
  | InvalidFontData
  | Panic
deriving DecidableEq

/-- The per-cell body of the cell loop in `render_board_to_png`: compute the
flat index `row * board_size + col` (in `u32`), fetch the cell's string
(panicking — `none` — if out of range, as slice indexing does), and wrap-draw
it into the cell box with its 10-pixel inner margin and `cell_px - 20`
content box. -/
def cellStep (fm : FontModel) (elements : List String) (n : ℕ)
    (img : RgbImage) (rc : ℕ × ℕ) : Option RgbImage :=
  let idx := u32 (u32 (rc.1 * n) + rc.2)
  (elements.get? idx).bind fun content =>
    let x0 := u32 (u32 (20 + u32 (rc.2 * 128)) + 10)
    let y0 := u32 (u32 (20 + u32 (rc.1 * 128)) + 10)
    draw_wrapped fm img content x0 y0 (128 - 20) (128 - 20) txtColor

/-- The row-major cell enumeration `for row in 0..n { for col in 0..n }`. -/
def boardCells (n : ℕ) : List (ℕ × ℕ) :=
  (List.range n).flatMap fun row => (List.range n).map fun col => (row, col)

/-- `render_board_to_png` (minus the final PNG encode and file write): check
the element count, allocate the background buffer and draw the grid, load the
font (`fontData` is the `find_system_font_data()` result; `parseFont` is
`Font::try_from_vec` abstracted to the `FontModel` the painter reads), then
fill every cell.  Any modelled panic surfaces as `RenderError.Panic`. -/
def render_board_to_png (fontData : Option FontBytes)
    (parseFont : FontBytes → Option FontModel) (elements : List String)
    (board_size : ℕ) : Except RenderError RgbImage :=
  if u32 (board_size * board_size) ≠ elements.length then
    .error .DimensionMismatch
  else
    match gridImage board_size with
    | none => .error .Panic
    | some img0 =>
      match fontData with
      | none => .error .FontNotFound
      | some bytes =>
        match parseFont bytes with
        | none => .error .InvalidFontData
        | some fm =>
          match List.foldlM (cellStep fm elements board_size) img0
              (boardCells board_size) with
          | none => .error .Panic
          | some img => .ok img

/-- A concrete word-width function (every word 2 units wide) used to
instantiate hypotheses in witness theorems. -/
def wwConst : String → ℚ := fun _ => 2

/-- The pixels painted by grid-loop iteration `i` for board size `n`: the
horizontal line at `y = padding + i*cell_px` across the grid width, and the
vertical line at `x = padding + i*cell_px` across the grid height. -/
def stepOn (n i a b : ℕ) : Prop :=
  (b = 20 + i * 128 ∧ 20 ≤ a ∧ a < 20 + n * 128) ∨
  (a = 20 + i * 128 ∧ 20 ≤ b ∧ b < 20 + n * 128)

/-- The pixels painted by the first `k` grid-loop iterations. -/
def gridUpTo (k n a b : ℕ) : Prop := ∃ i, i < k ∧ stepOn n i a b

/-- Pixel `(a, b)` lies on one of the `n+1` horizontal or `n+1` vertical
single-pixel grid lines, located at offsets `padding + i*cellPixelSize` for
`i = 0..n` and spanning the grid area. -/
def isOnGridLine (n a b : ℕ) : Prop := ∃ i, i ≤ n ∧ stepOn n i a b

/-- A trivial concrete font model (no glyphs, zero metrics) used to
instantiate hypotheses in witness theorems. -/
def fmTriv : FontModel := ⟨fun _ => 0, 0, 0, fun _ _ => []⟩

/-- Concrete font bytes for witness theorems. -/
def fbTriv : FontBytes := []

/-- A concrete font parser for witness theorems: accepts anything as
`fmTriv`. -/
def parseTriv : FontBytes → Option FontModel := fun _ => some fmTriv

/-- A concrete font parser that rejects everything, for counterexample
instantiations. -/
def parseNone : FontBytes → Option FontModel := fun _ => none

/-- A 1-by-1 black image used to witness the glyph-blend theorem. -/
def imgOne : RgbImage := ⟨1, 1, fun _ _ => ⟨0, 0, 0⟩⟩

/-- A 1-by-1 fully covered glyph at the origin used to witness the
glyph-blend theorem. -/
def glyphOne : Glyph := ⟨0, 0, 1, 1, fun _ _ => 1⟩

theorem lineWidth_cons_cons (ww : String → ℚ) (x y : String) (L : List String) :
    lineWidth ww (x :: y :: L) = ww x + ww " " + lineWidth ww (y :: L) := rfl

theorem lineWidth_append (ww : String → ℚ) (l : List String) (w : String)
    (h : l ≠ []) : lineWidth ww (l ++ [w]) = lineWidth ww l + ww " " + ww w := by
  induction l with
  | nil => exact absurd rfl h
  | cons a t ih =>
    cases t with
    | nil => simp [lineWidth]
    | cons b t2 =>
      have ht : b :: t2 ≠ [] := by simp
      simp only [List.cons_append] at ih ⊢
      rw [lineWidth_cons_cons, lineWidth_cons_cons, ih ht]
      ring

theorem wrapLoop_width_inv (ww : String → ℚ) (lh maxW maxH : ℚ) :
    ∀ (words line : List String) (lw penY : ℚ),
      lw = lineWidth ww line →
      (line ≠ [] → lw ≤ maxW ∨ line.length = 1) →
      ∀ L y, (L, y) ∈ wrapLoop ww lh maxW maxH words line lw penY →
        L ≠ [] ∧ (maxW < lineWidth ww L → L.length = 1) := by
  intro words
  induction words with
  | nil => intro line lw penY _ _ L y h; simp [wrapLoop] at h
  | cons w rest ih =>
    intro line lw penY hlw hinv L y hmem
    simp only [wrapLoop] at hmem
    by_cases hline : line = []
    · subst hline
      simp only [ne_eq, not_true_eq_false, false_and, if_false, if_pos rfl,
        List.nil_append] at hmem
      by_cases hr : rest = []
      · rw [if_pos hr] at hmem
        by_cases hb : maxH < penY + lh
        · rw [if_pos hb] at hmem; simp at hmem
        · rw [if_neg hb] at hmem
          simp only [List.mem_singleton, Prod.mk.injEq] at hmem
          obtain ⟨hL, _⟩ := hmem
          subst hL
          exact ⟨by simp, fun _ => rfl⟩
      · rw [if_neg hr] at hmem
        refine ih [w] (lw + 0 + ww w) penY ?_ ?_ L y hmem
        · rw [hlw]; show (0 : ℚ) + 0 + ww w = ww w; ring
        · intro _; exact Or.inr rfl
    · simp only [if_neg hline] at hmem
      have hlineP : line ≠ [] := hline
      by_cases hgt : maxW < lw + ww " " + ww w
      · rw [if_pos ⟨hlineP, hgt⟩] at hmem
        by_cases hb1 : maxH < penY + lh
        · rw [if_pos hb1] at hmem; simp at hmem
        · rw [if_neg hb1] at hmem
          have hLline : L = line →
              L ≠ [] ∧ (maxW < lineWidth ww L → L.length = 1) := by
            intro hL
            subst hL
            refine ⟨hlineP, fun hw => ?_⟩
            rcases hinv hlineP with hle | h1
            · exact absurd hw (not_lt.mpr (hlw ▸ hle))
            · exact h1
          by_cases hr : rest = []
          · rw [if_pos hr] at hmem
            by_cases hb2 : maxH < penY + lh + lh
            · rw [if_pos hb2] at hmem
              simp only [List.mem_singleton] at hmem
              exact hLline (congrArg Prod.fst hmem)
            · rw [if_neg hb2] at hmem
              simp only [List.mem_cons, List.not_mem_nil, or_false] at hmem
              rcases hmem with h | h
              · exact hLline (congrArg Prod.fst h)
              · have hL : L = [w] := congrArg Prod.fst h
                subst hL
                exact ⟨by simp, fun _ => rfl⟩
          · rw [if_neg hr] at hmem
            rcases List.mem_cons.mp hmem with h | h
            · exact hLline (congrArg Prod.fst h)
            · refine ih [w] (ww w) (penY + lh) rfl ?_ L y h
              intro _; exact Or.inr rfl
      · rw [if_neg (by intro h; exact hgt h.2)] at hmem
        by_cases hr : rest = []
        · rw [if_pos hr] at hmem
          by_cases hb : maxH < penY + lh
          · rw [if_pos hb] at hmem; simp at hmem
          · rw [if_neg hb] at hmem
            simp only [List.mem_singleton] at hmem
            have hL : L = line ++ [w] := congrArg Prod.fst hmem
            subst hL
            refine ⟨by simp, fun hw => ?_⟩
            rw [lineWidth_append ww line w hlineP, ← hlw] at hw
            exact absurd hw (not_lt.mpr (not_lt.mp hgt))
        · rw [if_neg hr] at hmem
          refine ih (line ++ [w]) (lw + ww " " + ww w) penY ?_ ?_ L y hmem
          · rw [lineWidth_append ww line w hlineP, hlw]
          · intro _; exact Or.inl (not_lt.mp hgt)

theorem wrapLoop_mem_height (ww : String → ℚ) (lh maxW maxH : ℚ) :
    ∀ (words line : List String) (lw penY : ℚ) (L : List String) (y : ℚ),
      (L, y) ∈ wrapLoop ww lh maxW maxH words line lw penY → y + lh ≤ maxH := by
  intro words
  induction words with
  | nil => intro line lw penY L y h; simp [wrapLoop] at h
  | cons w rest ih =>
    intro line lw penY L y hmem
    simp only [wrapLoop] at hmem
    by_cases hline : line = []
    · subst hline
      simp only [ne_eq, not_true_eq_false, false_and, if_false, if_pos rfl,
        List.nil_append] at hmem
      by_cases hr : rest = []
      · rw [if_pos hr] at hmem
        by_cases hb : maxH < penY + lh
        · rw [if_pos hb] at hmem; simp at hmem
        · rw [if_neg hb] at hmem
          simp only [List.mem_singleton] at hmem
          have hy : y = penY := congrArg Prod.snd hmem
          subst hy; exact not_lt.mp hb
      · rw [if_neg hr] at hmem
        exact ih [w] (lw + 0 + ww w) penY L y hmem
    · simp only [if_neg hline] at hmem
      by_cases hgt : maxW < lw + ww " " + ww w
      · rw [if_pos ⟨hline, hgt⟩] at hmem
        by_cases hb1 : maxH < penY + lh
        · rw [if_pos hb1] at hmem; simp at hmem
        · rw [if_neg hb1] at hmem
          by_cases hr : rest = []
          · rw [if_pos hr] at hmem
            by_cases hb2 : maxH < penY + lh + lh
            · rw [if_pos hb2] at hmem
              simp only [List.mem_singleton] at hmem
              have hy : y = penY := congrArg Prod.snd hmem
              subst hy; exact not_lt.mp hb1
            · rw [if_neg hb2] at hmem
              simp only [List.mem_cons, List.not_mem_nil, or_false] at hmem
              rcases hmem with h | h
              · have hy : y = penY := congrArg Prod.snd h
                subst hy; exact not_lt.mp hb1
              · have hy : y = penY + lh := congrArg Prod.snd h
                subst hy; exact not_lt.mp hb2
          · rw [if_neg hr] at hmem
            rcases List.mem_cons.mp hmem with h | h
            · have hy : y = penY := congrArg Prod.snd h
              subst hy; exact not_lt.mp hb1
            · exact ih [w] (ww w) (penY + lh) L y h
      · rw [if_neg (fun h => hgt h.2)] at hmem
        by_cases hr : rest = []
        · rw [if_pos hr] at hmem
          by_cases hb : maxH < penY + lh
          · rw [if_pos hb] at hmem; simp at hmem
          · rw [if_neg hb] at hmem
            simp only [List.mem_singleton] at hmem
            have hy : y = penY := congrArg Prod.snd hmem
            subst hy; exact not_lt.mp hb
        · rw [if_neg hr] at hmem
          exact ih (line ++ [w]) (lw + ww " " + ww w) penY L y hmem

theorem wrapLoop_mem_ne_nil (ww : String → ℚ) (lh maxW maxH : ℚ) :
    ∀ (words line : List String) (lw penY : ℚ) (L : List String) (y : ℚ),
      (L, y) ∈ wrapLoop ww lh maxW maxH words line lw penY → L ≠ [] := by
  intro words
  induction words with
  | nil => intro line lw penY L y h; simp [wrapLoop] at h
  | cons w rest ih =>
    intro line lw penY L y hmem
    simp only [wrapLoop] at hmem
    by_cases hline : line = []
    · subst hline
      simp only [ne_eq, not_true_eq_false, false_and, if_false, if_pos rfl,
        List.nil_append] at hmem
      by_cases hr : rest = []
      · rw [if_pos hr] at hmem
        by_cases hb : maxH < penY + lh
        · rw [if_pos hb] at hmem; simp at hmem
        · rw [if_neg hb] at hmem
          simp only [List.mem_singleton] at hmem
          have hL : L = [w] := congrArg Prod.fst hmem
          subst hL; simp
      · rw [if_neg hr] at hmem
        exact ih [w] (lw + 0 + ww w) penY L y hmem
    · simp only [if_neg hline] at hmem
      by_cases hgt : maxW < lw + ww " " + ww w
      · rw [if_pos ⟨hline, hgt⟩] at hmem
        by_cases hb1 : maxH < penY + lh
        · rw [if_pos hb1] at hmem; simp at hmem
        · rw [if_neg hb1] at hmem
          by_cases hr : rest = []
          · rw [if_pos hr] at hmem
            by_cases hb2 : maxH < penY + lh + lh
            · rw [if_pos hb2] at hmem
              simp only [List.mem_singleton] at hmem
              have hL : L = line := congrArg Prod.fst hmem
              subst hL; exact hline
            · rw [if_neg hb2] at hmem
              simp only [List.mem_cons, List.not_mem_nil, or_false] at hmem
              rcases hmem with h | h
              · have hL : L = line := congrArg Prod.fst h
                subst hL; exact hline
              · have hL : L = [w] := congrArg Prod.fst h
                subst hL; simp
          · rw [if_neg hr] at hmem
            rcases List.mem_cons.mp hmem with h | h
            · have hL : L = line := congrArg Prod.fst h
              subst hL; exact hline
            · exact ih [w] (ww w) (penY + lh) L y h
      · rw [if_neg (fun h => hgt h.2)] at hmem
        by_cases hr : rest = []
        · rw [if_pos hr] at hmem
          by_cases hb : maxH < penY + lh
          · rw [if_pos hb] at hmem; simp at hmem
          · rw [if_neg hb] at hmem
            simp only [List.mem_singleton] at hmem
            have hL : L = line ++ [w] := congrArg Prod.fst hmem
            subst hL; simp
        · rw [if_neg hr] at hmem
          exact ih (line ++ [w]) (lw + ww " " + ww w) penY L y hmem

theorem wrapLoop_count (ww : String → ℚ) (lh maxW maxH : ℚ) :
    ∀ (words line : List String) (lw penY : ℚ),
      wrapLoop ww lh maxW maxH words line lw penY ≠ [] →
      penY + ((wrapLoop ww lh maxW maxH words line lw penY).length : ℚ) * lh
        ≤ maxH := by
  intro words
  induction words with
  | nil => intro line lw penY h; simp [wrapLoop] at h
  | cons w rest ih =>
    intro line lw penY hne
    simp only [wrapLoop] at hne ⊢
    by_cases hline : line = []
    · subst hline
      simp only [ne_eq, not_true_eq_false, false_and, if_false, if_pos rfl,
        List.nil_append] at hne ⊢
      by_cases hr : rest = []
      · rw [if_pos hr] at hne ⊢
        by_cases hb : maxH < penY + lh
        · rw [if_pos hb] at hne; exact absurd rfl hne
        · rw [if_neg hb]
          simp only [List.length_singleton]
          have := not_lt.mp hb
          push_cast
          linarith
      · rw [if_neg hr] at hne ⊢
        exact ih [w] (lw + 0 + ww w) penY hne
    · simp only [if_neg hline] at hne ⊢
      by_cases hgt : maxW < lw + ww " " + ww w
      · rw [if_pos ⟨hline, hgt⟩] at hne ⊢
        by_cases hb1 : maxH < penY + lh
        · rw [if_pos hb1] at hne; exact absurd rfl hne
        · rw [if_neg hb1] at hne ⊢
          by_cases hr : rest = []
          · rw [if_pos hr] at hne ⊢
            by_cases hb2 : maxH < penY + lh + lh
            · rw [if_pos hb2]
              simp only [List.length_singleton]
              have := not_lt.mp hb1
              push_cast
              linarith
            · rw [if_neg hb2]
              simp only [List.length_cons, List.length_nil]
              have := not_lt.mp hb2
              push_cast
              linarith
          · rw [if_neg hr] at hne ⊢
            simp only [List.length_cons]
            rcases eq_or_ne
                (wrapLoop ww lh maxW maxH rest [w] (ww w) (penY + lh)) []
              with hnil | hnn
            · rw [hnil]
              simp only [List.length_nil]
              have := not_lt.mp hb1
              push_cast
              linarith
            · have := ih [w] (ww w) (penY + lh) hnn
              push_cast at this ⊢
              linarith
      · rw [if_neg (fun h => hgt h.2)] at hne ⊢
        by_cases hr : rest = []
        · rw [if_pos hr] at hne ⊢
          by_cases hb : maxH < penY + lh
          · rw [if_pos hb] at hne; exact absurd rfl hne
          · rw [if_neg hb]
            simp only [List.length_singleton]
            have := not_lt.mp hb
            push_cast
            linarith
        · rw [if_neg hr] at hne ⊢
          exact ih (line ++ [w]) (lw + ww " " + ww w) penY hne

theorem appendLeftMono {α : Type} (x : List α) {l m : List α}
    (h : l <+: m) : x ++ l <+: x ++ m := by
  obtain ⟨t, ht⟩ := h
  exact ⟨t, by rw [List.append_assoc, ht]⟩

theorem wrapLoop_flatten_words (ww : String → ℚ) (lh maxW maxH : ℚ) :
    ∀ (words line : List String) (lw penY : ℚ),
      (List.map Prod.fst
        (wrapLoop ww lh maxW maxH words line lw penY)).flatten <+:
        line ++ words := by
  intro words
  induction words with
  | nil => intro line lw penY; simp [wrapLoop]
  | cons w rest ih =>
    intro line lw penY
    simp only [wrapLoop]
    by_cases hline : line = []
    · subst hline
      simp only [ne_eq, not_true_eq_false, false_and, if_false, if_pos rfl,
        List.nil_append]
      by_cases hr : rest = []
      · subst hr
        rw [if_pos rfl]
        by_cases hb : maxH < penY + lh
        · rw [if_pos hb]; simp
        · rw [if_neg hb]; simp
      · rw [if_neg hr]
        exact ih [w] (lw + 0 + ww w) penY
    · simp only [if_neg hline]
      by_cases hgt : maxW < lw + ww " " + ww w
      · rw [if_pos ⟨hline, hgt⟩]
        by_cases hb1 : maxH < penY + lh
        · rw [if_pos hb1]; exact List.nil_prefix
        · rw [if_neg hb1]
          by_cases hr : rest = []
          · subst hr
            rw [if_pos rfl]
            by_cases hb2 : maxH < penY + lh + lh
            · rw [if_pos hb2]
              simp only [List.map_cons, List.map_nil, List.flatten_cons,
                List.flatten_nil, List.append_nil]
              exact List.prefix_append _ _
            · rw [if_neg hb2]
              simp only [List.map_cons, List.map_nil, List.flatten_cons,
                List.flatten_nil, List.append_nil]
              exact List.prefix_refl _
          · rw [if_neg hr]
            simp only [List.map_cons, List.flatten_cons]
            have h2 := appendLeftMono line
              (ih [w] (ww w) (penY + lh))
            simpa using h2
      · rw [if_neg (fun h => hgt h.2)]
        by_cases hr : rest = []
        · subst hr
          rw [if_pos rfl]
          by_cases hb : maxH < penY + lh
          · rw [if_pos hb]; exact List.nil_prefix
          · rw [if_neg hb]
            simp only [List.map_cons, List.map_nil, List.flatten_cons,
              List.flatten_nil, List.append_nil]
            simp [List.append_assoc]
        · rw [if_neg hr]
          have h2 := ih (line ++ [w]) (lw + ww " " + ww w) penY
          rw [List.append_assoc] at h2
          simpa using h2

theorem splitWSAux_words :
    ∀ (cs acc : List Char), (∀ c ∈ acc, c.isWhitespace = false) →
      ∀ w ∈ splitWSAux cs acc, w ≠ [] ∧ ∀ c ∈ w, c.isWhitespace = false := by
  intro cs
  induction cs with
  | nil =>
    intro acc hacc w hw
    simp only [splitWSAux] at hw
    by_cases ha : acc = []
    · rw [if_pos ha] at hw; simp at hw
    · rw [if_neg ha] at hw
      simp only [List.mem_singleton] at hw
      subst hw
      refine ⟨by simpa using ha, ?_⟩
      intro c hc
      exact hacc c (List.mem_reverse.mp hc)
  | cons c cs ih =>
    intro acc hacc w hw
    simp only [splitWSAux] at hw
    by_cases hws : c.isWhitespace
    · rw [if_pos hws] at hw
      by_cases ha : acc = []
      · rw [if_pos ha] at hw
        exact ih [] (by simp) w hw
      · rw [if_neg ha] at hw
        rcases List.mem_cons.mp hw with h | h
        · subst h
          refine ⟨by simpa using ha, ?_⟩
          intro d hd
          exact hacc d (List.mem_reverse.mp hd)
        · exact ih [] (by simp) w h
    · rw [if_neg hws] at hw
      refine ih (c :: acc) ?_ w hw
      intro d hd
      rcases List.mem_cons.mp hd with h | h
      · subst h; exact Bool.not_eq_true _ ▸ eq_false_of_ne_true hws
      · exact hacc d h

theorem splitWhitespace_words (s : String) :
    ∀ w ∈ splitWhitespace s, w ≠ "" ∧ ∀ c ∈ w.data, c.isWhitespace = false := by
  intro w hw
  simp only [splitWhitespace, List.mem_map] at hw
  obtain ⟨l, hl, hwl⟩ := hw
  obtain ⟨hne, hchars⟩ := splitWSAux_words s.data [] (by simp) l hl
  subst hwl
  constructor
  · intro h
    exact hne (congrArg String.data h)
  · exact hchars

/-- C3: for every font (word-width function), input text, maxWidth and
maxHeight, every line emitted by the greedy word-wrap of
`TextPainter::draw_wrapped` is a nonempty run of unbroken input words, and its
measured width (word advances plus one space advance per join, exactly as the
loop tracks `line_width`) exceeds `maxWidth` only when the line consists of a
single word — an oversized word occupies its own line unsplit. -/
theorem c3_wrap_line_width_bound (ww : String → ℚ) (lh maxW maxH : ℚ)
    (text : String) (L : List String) (y : ℚ)
    (hmem : (L, y) ∈ drawWrappedLines ww lh maxW maxH text) :
    L ≠ [] ∧ (maxW < lineWidth ww L → L.length = 1) :=
  wrapLoop_width_inv ww lh maxW maxH (splitWhitespace text) [] 0 0 rfl
    (fun h => absurd rfl h) L y hmem

/-- Witness for C3 at a concrete input: wrapping "aa bb" at width 2 emits the
line ["aa"] at offset 0, and the theorem's conclusion holds of it. -/
theorem c3_wrap_line_width_bound_witness :
    ((["aa"], (0 : ℚ)) ∈ drawWrappedLines wwConst 1 2 10 "aa bb") ∧
      (["aa"] ≠ [] ∧ (2 < lineWidth wwConst ["aa"] →
        (["aa"] : List String).length = 1)) := by
  have hmem : (["aa"], (0 : ℚ)) ∈ drawWrappedLines wwConst 1 2 10 "aa bb" := by
    norm_num [drawWrappedLines, wrapLoop, splitWhitespace, splitWSAux, wwConst]
    decide
  exact ⟨hmem, c3_wrap_line_width_bound wwConst 1 2 10 "aa bb" ["aa"] 0 hmem⟩

/-- C4: for every font, text, maxWidth and (nonnegative) maxHeight, each line
is emitted only after checking that its vertical offset plus one line height
stays within `maxHeight`, and consequently the number of emitted lines times
the line height never exceeds `maxHeight`; overflowing lines are silently
dropped (the loop `break`s, producing no error value). -/
theorem c4_wrap_height_bound (ww : String → ℚ) (lh maxW maxH : ℚ)
    (text : String) (h0 : 0 ≤ maxH) :
    (∀ L y, (L, y) ∈ drawWrappedLines ww lh maxW maxH text →
        y + lh ≤ maxH) ∧
      ((drawWrappedLines ww lh maxW maxH text).length : ℚ) * lh ≤ maxH := by
  constructor
  · intro L y hmem
    exact wrapLoop_mem_height ww lh maxW maxH (splitWhitespace text) [] 0 0 L y
      hmem
  · rcases eq_or_ne (drawWrappedLines ww lh maxW maxH text) [] with h | h
    · rw [h]; simpa using h0
    · have hc := wrapLoop_count ww lh maxW maxH (splitWhitespace text) [] 0 0
        (by simpa [drawWrappedLines] using h)
      simp only [drawWrappedLines] at *
      linarith

/-- Witness for C4 at a concrete input (maxHeight 3, line height 2: only one
of the two wrapped lines fits and is emitted). -/
theorem c4_wrap_height_bound_witness :
    ((0 : ℚ) ≤ 3) ∧
      ((∀ L y, (L, y) ∈ drawWrappedLines wwConst 2 2 3 "aa bb" →
          y + 2 ≤ 3) ∧
        ((drawWrappedLines wwConst 2 2 3 "aa bb").length : ℚ) * 2 ≤ 3) :=
  ⟨by norm_num, c4_wrap_height_bound wwConst 2 2 3 "aa bb" (by norm_num)⟩

/-- C7: word-wrap is idempotent on pre-wrapped input: a text consisting of a
single word whose width fits `maxWidth`, when one line height fits
`maxHeight`, wraps to exactly one emitted line equal to that word at vertical
offset zero. -/
theorem c7_wrap_single_word (ww : String → ℚ) (lh maxW maxH : ℚ)
    (text w : String) (hsplit : splitWhitespace text = [w])
    (hfit : ww w ≤ maxW) (hlh : lh ≤ maxH) :
    drawWrappedLines ww lh maxW maxH text = [([w], 0)] := by
  simp only [drawWrappedLines, hsplit, wrapLoop]
  have hb : ¬ (maxH < 0 + lh) := by
    rw [zero_add]
    exact not_lt.mpr hlh
  simp [hb, hlh]

/-- Witness for C7: the single word "hi" (width 2 ≤ 5) with line height 1 ≤ 4
wraps to exactly one line ["hi"] at offset 0. -/
theorem c7_wrap_single_word_witness :
    splitWhitespace "hi" = ["hi"] ∧ wwConst "hi" ≤ 5 ∧ (1 : ℚ) ≤ 4 ∧
      drawWrappedLines wwConst 1 5 4 "hi" = [(["hi"], 0)] := by
  have h1 : splitWhitespace "hi" = ["hi"] := by decide
  exact ⟨h1, by norm_num [wwConst], by norm_num,
    c7_wrap_single_word wwConst 1 5 4 "hi" "hi" h1 (by norm_num [wwConst])
      (by norm_num)⟩

/-- C10: every emitted line is a nonempty run of words; the emitted lines, in
order, carry a prefix of the input's word sequence (so words are consecutive
and unbroken, each line's text being the words joined by single spaces via
`lineText`); and since the input is split on all whitespace, every word is
nonempty and whitespace-free — whitespace runs in the input only separate
words and leading/trailing whitespace contributes nothing. -/
theorem c10_wrap_words_structure (ww : String → ℚ) (lh maxW maxH : ℚ)
    (text : String) :
    (List.map Prod.fst (drawWrappedLines ww lh maxW maxH text)).flatten <+:
        splitWhitespace text ∧
      (∀ L y, (L, y) ∈ drawWrappedLines ww lh maxW maxH text → L ≠ []) ∧
      ∀ w ∈ splitWhitespace text, w ≠ "" ∧
        ∀ c ∈ w.data, c.isWhitespace = false := by
  refine ⟨?_, ?_, splitWhitespace_words text⟩
  · have h := wrapLoop_flatten_words ww lh maxW maxH (splitWhitespace text)
      [] 0 0
    simpa [drawWrappedLines] using h
  · intro L y hmem
    exact wrapLoop_mem_ne_nil ww lh maxW maxH (splitWhitespace text) [] 0 0 L y
      hmem

theorem applyCov_width (left top : ℕ) (bbx bby : ℤ) (color : Rgb)
    (img : RgbImage) (x y : ℕ) (v : ℚ) :
    (applyCov left top bbx bby color img x y v).width = img.width := by
  simp only [applyCov, setPix]
  split_ifs <;> rfl

theorem applyCov_height (left top : ℕ) (bbx bby : ℤ) (color : Rgb)
    (img : RgbImage) (x y : ℕ) (v : ℚ) :
    (applyCov left top bbx bby color img x y v).height = img.height := by
  simp only [applyCov, setPix]
  split_ifs <;> rfl

theorem drawCovPixel_eq (left top : ℕ) (bbx bby : ℤ) (color : Rgb)
    (img : RgbImage) (x y : ℕ) (v : ℚ) :
    drawCovPixel left top bbx bby color img x y v =
      some (applyCov left top bbx bby color img x y v) := by
  unfold drawCovPixel applyCov blendAt getPixel putPixel
  by_cases hv : v < 1/20
  · rw [if_pos hv, if_pos hv]
  · rw [if_neg hv, if_neg hv]
    by_cases hg : 0 ≤ (left : ℤ) + (x : ℤ) + bbx ∧ 0 ≤ (top : ℤ) + (y : ℤ) + bby ∧
        ((left : ℤ) + (x : ℤ) + bbx).toNat < img.width ∧
        ((top : ℤ) + (y : ℤ) + bby).toNat < img.height
    · rw [if_pos hg, if_pos hg]
      have hb : ((left : ℤ) + (x : ℤ) + bbx).toNat < img.width ∧
          ((top : ℤ) + (y : ℤ) + bby).toNat < img.height := ⟨hg.2.2.1, hg.2.2.2⟩
      rw [if_pos hb]
      exact if_pos hb
    · rw [if_neg hg, if_neg hg]

theorem drawGlyph_eq (img : RgbImage) (g : Glyph) (left top : ℕ)
    (color : Rgb) :
    drawGlyph img g left top color = some (drawGlyphT img g left top color) := by
  unfold drawGlyph drawGlyphT
  generalize glyphCoords g = ps
  induction ps generalizing img with
  | nil => rfl
  | cons p ps ih =>
    rw [List.foldlM_cons, List.foldl_cons, drawCovPixel_eq]
    exact ih _

theorem drawGlyphT_width (img : RgbImage) (g : Glyph) (left top : ℕ)
    (color : Rgb) :
    (drawGlyphT img g left top color).width = img.width := by
  unfold drawGlyphT
  generalize glyphCoords g = ps
  induction ps generalizing img with
  | nil => rfl
  | cons p ps ih =>
    rw [List.foldl_cons]
    rw [ih _, applyCov_width]

theorem drawGlyphT_height (img : RgbImage) (g : Glyph) (left top : ℕ)
    (color : Rgb) :
    (drawGlyphT img g left top color).height = img.height := by
  unfold drawGlyphT
  generalize glyphCoords g = ps
  induction ps generalizing img with
  | nil => rfl
  | cons p ps ih =>
    rw [List.foldl_cons]
    rw [ih _, applyCov_height]

theorem draw_line_total (img : RgbImage) (glyphs : List Glyph) (left top : ℕ)
    (color : Rgb) :
    ∃ img2, draw_line img glyphs left top color = some img2 ∧
      img2.width = img.width ∧ img2.height = img.height := by
  unfold draw_line
  induction glyphs generalizing img with
  | nil => exact ⟨img, rfl, rfl, rfl⟩
  | cons g gs ih =>
    rw [List.foldlM_cons, drawGlyph_eq]
    obtain ⟨img2, h1, h2, h3⟩ := ih (drawGlyphT img g left top color)
    refine ⟨img2, h1, ?_, ?_⟩
    · rw [h2, drawGlyphT_width]
    · rw [h3, drawGlyphT_height]

/-- C6: glyph blending is bounds-safe.  For any buffer, any glyph list
(including glyphs whose pixel bounding boxes lie partially or fully outside
the buffer, with negative or too-large coordinates), `draw_line` never
performs an out-of-bounds pixel access — the per-pixel bounds guard makes the
panic case unreachable, so the call always returns a buffer (never `none`),
of unchanged dimensions. -/
theorem c6_draw_line_bounds_safe (img : RgbImage) (glyphs : List Glyph)
    (left top : ℕ) (color : Rgb) :
    ∃ img2, draw_line img glyphs left top color = some img2 ∧
      img2.width = img.width ∧ img2.height = img.height :=
  draw_line_total img glyphs left top color

theorem applyCov_pix_other (left top : ℕ) (bbx bby : ℤ) (color : Rgb)
    (img : RgbImage) (x y : ℕ) (v : ℚ) (a b : ℕ)
    (hne : ¬((left : ℤ) + x + bbx = (a : ℤ) ∧ (top : ℤ) + y + bby = (b : ℤ))) :
    (applyCov left top bbx bby color img x y v).pix a b = img.pix a b := by
  simp only [applyCov, setPix]
  split_ifs with hv hg
  · rfl
  · show (fun a2 b2 => if a2 = _ ∧ b2 = _ then _ else img.pix a2 b2) a b =
      img.pix a b
    simp only
    rw [if_neg]
    intro ⟨ha, hb⟩
    apply hne
    constructor
    · rw [← Int.toNat_of_nonneg hg.1, ← ha]
    · rw [← Int.toNat_of_nonneg hg.2.1, ← hb]
  · rfl

theorem applyCov_pix_self (left top : ℕ) (bbx bby : ℤ) (color : Rgb)
    (img : RgbImage) (x y : ℕ) (v : ℚ)
    (h0x : 0 ≤ (left : ℤ) + x + bbx) (h0y : 0 ≤ (top : ℤ) + y + bby)
    (hbx : ((left : ℤ) + x + bbx).toNat < img.width)
    (hby : ((top : ℤ) + y + bby).toNat < img.height) :
    (applyCov left top bbx bby color img x y v).pix
        ((left : ℤ) + x + bbx).toNat ((top : ℤ) + y + bby).toNat =
      if v < 1/20 then
        img.pix ((left : ℤ) + x + bbx).toNat ((top : ℤ) + y + bby).toNat
      else
        blendRgb
          (img.pix ((left : ℤ) + x + bbx).toNat ((top : ℤ) + y + bby).toNat)
          color v := by
  simp only [applyCov, setPix]
  split_ifs with hv hg
  · rfl
  · simp
  · exact absurd ⟨h0x, h0y, hbx, hby⟩ hg

theorem foldlCov_pix_other (left top : ℕ) (bbx bby : ℤ) (color : Rgb)
    (cov : ℕ → ℕ → ℚ) (a b : ℕ) :
    ∀ (ps : List (ℕ × ℕ)) (img : RgbImage),
      (∀ p ∈ ps, ¬((left : ℤ) + p.1 + bbx = (a : ℤ) ∧
        (top : ℤ) + p.2 + bby = (b : ℤ))) →
      (List.foldl
        (fun im p => applyCov left top bbx bby color im p.1 p.2 (cov p.1 p.2))
        img ps).pix a b = img.pix a b := by
  intro ps
  induction ps with
  | nil => intro img _; rfl
  | cons p ps ih =>
    intro img hp
    rw [List.foldl_cons, ih _ (fun q hq => hp q (List.mem_cons_of_mem p hq)),
      applyCov_pix_other left top bbx bby color img p.1 p.2 _ a b
        (hp p (List.mem_cons_self p ps))]

theorem foldlCov_width (left top : ℕ) (bbx bby : ℤ) (color : Rgb)
    (cov : ℕ → ℕ → ℚ) :
    ∀ (ps : List (ℕ × ℕ)) (img : RgbImage),
      (List.foldl
        (fun im p => applyCov left top bbx bby color im p.1 p.2 (cov p.1 p.2))
        img ps).width = img.width := by
  intro ps
  induction ps with
  | nil => intro img; rfl
  | cons p ps ih =>
    intro img
    rw [List.foldl_cons, ih _, applyCov_width]

theorem foldlCov_height (left top : ℕ) (bbx bby : ℤ) (color : Rgb)
    (cov : ℕ → ℕ → ℚ) :
    ∀ (ps : List (ℕ × ℕ)) (img : RgbImage),
      (List.foldl
        (fun im p => applyCov left top bbx bby color im p.1 p.2 (cov p.1 p.2))
        img ps).height = img.height := by
  intro ps
  induction ps with
  | nil => intro img; rfl
  | cons p ps ih =>
    intro img
    rw [List.foldl_cons, ih _, applyCov_height]

theorem glyphCoords_nodup (g : Glyph) : (glyphCoords g).Nodup := by
  unfold glyphCoords
  refine List.nodup_flatMap.mpr ⟨?_, ?_⟩
  · intro x _
    exact (List.nodup_range _).map fun a b h => congrArg Prod.snd h
  · refine (List.pairwise_lt_range _).imp ?_
    intro x1 x2 hlt p hp1 hp2
    obtain ⟨y1, _, hy1⟩ := List.mem_map.mp hp1
    obtain ⟨y2, _, hy2⟩ := List.mem_map.mp hp2
    subst hy1
    exact Nat.ne_of_lt hlt (congrArg Prod.fst hy2).symm

theorem mem_glyphCoords (g : Glyph) (x y : ℕ) (hx : x < g.bbW)
    (hy : y < g.bbH) : (x, y) ∈ glyphCoords g := by
  unfold glyphCoords
  refine List.mem_flatMap.mpr ⟨x, List.mem_range.mpr hx, ?_⟩
  exact List.mem_map.mpr ⟨y, List.mem_range.mpr hy, rfl⟩

theorem nodup_split_not_mem {α : Type} {l : List α} {a : α}
    (hmem : a ∈ l) (hnd : l.Nodup) :
    ∃ s t, l = s ++ a :: t ∧ a ∉ s ∧ a ∉ t := by
  obtain ⟨s, t, rfl⟩ := List.append_of_mem hmem
  have h1 := List.nodup_append.mp hnd
  refine ⟨s, t, rfl, ?_, ?_⟩
  · intro hs
    exact h1.2.2 hs (List.mem_cons_self a t)
  · exact (List.nodup_cons.mp h1.2.1).1

/-- C9: for every in-bounds pixel targeted by a glyph sample with coverage
`v = cov x y`, rasterizing the glyph leaves that pixel completely unchanged
when `v < 0.05`, and otherwise replaces it by the per-channel alpha blend
`dst*(1-v) + color*v` (cast back to a byte) of its previous value — each RGB
channel independently, per `blendRgb`. -/
theorem c9_glyph_pixel_blend (img : RgbImage) (g : Glyph) (left top : ℕ)
    (color : Rgb) (x y : ℕ) (hx : x < g.bbW) (hy : y < g.bbH)
    (h0x : 0 ≤ (left : ℤ) + x + g.bbMinX) (h0y : 0 ≤ (top : ℤ) + y + g.bbMinY)
    (hbx : ((left : ℤ) + x + g.bbMinX).toNat < img.width)
    (hby : ((top : ℤ) + y + g.bbMinY).toNat < img.height) :
    ∃ img2, drawGlyph img g left top color = some img2 ∧
      img2.pix ((left : ℤ) + x + g.bbMinX).toNat
          ((top : ℤ) + y + g.bbMinY).toNat =
        if g.cov x y < 1/20 then
          img.pix ((left : ℤ) + x + g.bbMinX).toNat
            ((top : ℤ) + y + g.bbMinY).toNat
        else
          blendRgb
            (img.pix ((left : ℤ) + x + g.bbMinX).toNat
              ((top : ℤ) + y + g.bbMinY).toNat)
            color (g.cov x y) := by
  refine ⟨drawGlyphT img g left top color, drawGlyph_eq img g left top color,
    ?_⟩
  have ha : ((((left : ℤ) + x + g.bbMinX).toNat : ℕ) : ℤ) =
      (left : ℤ) + x + g.bbMinX := Int.toNat_of_nonneg h0x
  have hb : ((((top : ℤ) + y + g.bbMinY).toNat : ℕ) : ℤ) =
      (top : ℤ) + y + g.bbMinY := Int.toNat_of_nonneg h0y
  have hkey : ∀ (p : ℕ × ℕ), p ≠ (x, y) →
      ¬((left : ℤ) + p.1 + g.bbMinX =
          ((((left : ℤ) + x + g.bbMinX).toNat : ℕ) : ℤ) ∧
        (top : ℤ) + p.2 + g.bbMinY =
          ((((top : ℤ) + y + g.bbMinY).toNat : ℕ) : ℤ)) := by
    intro p hne hcontra
    obtain ⟨h1, h2⟩ := hcontra
    rw [ha] at h1
    rw [hb] at h2
    apply hne
    refine Prod.ext_iff.mpr ⟨?_, ?_⟩
    · omega
    · omega
  obtain ⟨s, t, hst, hns, hnt⟩ :=
    nodup_split_not_mem (mem_glyphCoords g x y hx hy) (glyphCoords_nodup g)
  unfold drawGlyphT
  rw [hst, List.foldl_append, List.foldl_cons]
  rw [foldlCov_pix_other left top g.bbMinX g.bbMinY color g.cov _ _ t _
    (fun p hp => hkey p (fun he => hnt (he ▸ hp)))]
  have hw := foldlCov_width left top g.bbMinX g.bbMinY color g.cov s img
  have hh := foldlCov_height left top g.bbMinX g.bbMinY color g.cov s img
  rw [applyCov_pix_self left top g.bbMinX g.bbMinY color _ x y _ h0x h0y
    (hw.symm ▸ hbx) (hh.symm ▸ hby)]
  rw [foldlCov_pix_other left top g.bbMinX g.bbMinY color g.cov _ _ s img
    (fun p hp => hkey p (fun he => hns (he ▸ hp)))]

theorem drawHRun_eq (c : Rgb) :
    ∀ (len x0 y : ℕ) (img : RgbImage), y < img.height → x0 + len ≤ img.width →
      ∃ img2, drawHRun img y x0 len c = some img2 ∧
        img2.width = img.width ∧ img2.height = img.height ∧
        ∀ a b, img2.pix a b =
          if b = y ∧ x0 ≤ a ∧ a < x0 + len then c else img.pix a b := by
  intro len
  induction len with
  | zero =>
    intro x0 y img hy hx
    refine ⟨img, rfl, rfl, rfl, ?_⟩
    intro a b
    rw [if_neg (by omega)]
  | succ len ih =>
    intro x0 y img hy hx
    have h0 : x0 < img.width := by omega
    have hcons : List.range' x0 (len + 1) = x0 :: List.range' (x0 + 1) len :=
      List.range'_succ x0 len 1
    rw [drawHRun, hcons, List.foldlM_cons]
    have hput : putPixel img x0 y c = some (setPix img x0 y c) :=
      if_pos ⟨h0, hy⟩
    rw [hput]
    have hx2 : x0 + 1 + len ≤ img.width := by omega
    obtain ⟨img2, heq, hw, hh, hpix⟩ := ih (x0 + 1) y (setPix img x0 y c) hy hx2
    rw [drawHRun] at heq
    refine ⟨img2, heq, hw, hh, ?_⟩
    intro a b
    rw [hpix a b]
    by_cases h1 : b = y ∧ x0 + 1 ≤ a ∧ a < x0 + 1 + len
    · rw [if_pos h1, if_pos (by omega)]
    · rw [if_neg h1]
      show (if a = x0 ∧ b = y then c else img.pix a b) = _
      by_cases h2 : a = x0 ∧ b = y
      · rw [if_pos h2, if_pos (by omega)]
      · rw [if_neg h2, if_neg (by omega)]

theorem drawVRun_eq (c : Rgb) :
    ∀ (len y0 x : ℕ) (img : RgbImage), x < img.width → y0 + len ≤ img.height →
      ∃ img2, drawVRun img x y0 len c = some img2 ∧
        img2.width = img.width ∧ img2.height = img.height ∧
        ∀ a b, img2.pix a b =
          if a = x ∧ y0 ≤ b ∧ b < y0 + len then c else img.pix a b := by
  intro len
  induction len with
  | zero =>
    intro y0 x img hxw hy
    refine ⟨img, rfl, rfl, rfl, ?_⟩
    intro a b
    rw [if_neg (by omega)]
  | succ len ih =>
    intro y0 x img hxw hy
    have h0 : y0 < img.height := by omega
    have hcons : List.range' y0 (len + 1) = y0 :: List.range' (y0 + 1) len :=
      List.range'_succ y0 len 1
    rw [drawVRun, hcons, List.foldlM_cons]
    have hput : putPixel img x y0 c = some (setPix img x y0 c) :=
      if_pos ⟨hxw, h0⟩
    rw [hput]
    have hy2 : y0 + 1 + len ≤ img.height := by omega
    obtain ⟨img2, heq, hw, hh, hpix⟩ := ih (y0 + 1) x (setPix img x y0 c) hxw hy2
    rw [drawVRun] at heq
    refine ⟨img2, heq, hw, hh, ?_⟩
    intro a b
    rw [hpix a b]
    by_cases h1 : a = x ∧ y0 + 1 ≤ b ∧ b < y0 + 1 + len
    · rw [if_pos h1, if_pos (by omega)]
    · rw [if_neg h1]
      show (if a = x ∧ b = y0 then c else img.pix a b) = _
      by_cases h2 : a = x ∧ b = y0
      · rw [if_pos h2, if_pos (by omega)]
      · rw [if_neg h2, if_neg (by omega)]

theorem u32_eq {x : ℕ} (h : x < U32) : u32 x = x := Nat.mod_eq_of_lt h

theorem drawGridStep_eq (n i : ℕ) (hn : n * 128 + 40 < U32) (hi : i ≤ n)
    (img : RgbImage) (hw : img.width = n * 128 + 40)
    (hh : img.height = n * 128 + 40) :
    ∃ img2, drawGridStep n img i = some img2 ∧
      img2.width = img.width ∧ img2.height = img.height ∧
      ∀ a b, (stepOn n i a b → img2.pix a b = lineColor) ∧
        (¬ stepOn n i a b → img2.pix a b = img.pix a b) := by
  have e1 : u32 (n * 128) = n * 128 := u32_eq (by omega)
  have e2 : u32 (20 * 2) = 40 := u32_eq (by simp [U32])
  have e3 : u32 (i * 128) = i * 128 := u32_eq (by omega)
  have e4 : u32 (20 + i * 128) = 20 + i * 128 := u32_eq (by omega)
  have e5 : u32 (n * 128 + 40) = n * 128 + 40 := u32_eq hn
  have e6 : u32 (20 + n * 128) = 20 + n * 128 := u32_eq (by omega)
  have e7 : 20 + n * 128 - 20 = n * 128 := by omega
  simp only [drawGridStep, e1, e2, e3, e4, e5, e6, e7]
  have hguard : 20 + i * 128 < n * 128 + 40 := by omega
  rw [if_pos hguard]
  have hyb : 20 + i * 128 < img.height := by omega
  have hxb : 20 + n * 128 ≤ img.width := by omega
  obtain ⟨img1, heq1, hw1, hh1, hpix1⟩ :=
    drawHRun_eq lineColor (n * 128) 20 (20 + i * 128) img hyb hxb
  rw [heq1, Option.some_bind]
  rw [if_pos hguard]
  have hxb2 : 20 + i * 128 < img1.width := by omega
  have hyb2 : 20 + n * 128 ≤ img1.height := by omega
  obtain ⟨img2, heq2, hw2, hh2, hpix2⟩ :=
    drawVRun_eq lineColor (n * 128) 20 (20 + i * 128) img1 hxb2 hyb2
  rw [heq2]
  refine ⟨img2, rfl, by omega, by omega, ?_⟩
  intro a b
  constructor
  · intro hs
    rcases hs with hhor | hver
    · by_cases hv : a = 20 + i * 128 ∧ 20 ≤ b ∧ b < 20 + n * 128
      · rw [hpix2 a b, if_pos hv]
      · rw [hpix2 a b, if_neg hv, hpix1 a b, if_pos hhor]
    · rw [hpix2 a b, if_pos hver]
  · intro hs
    rw [hpix2 a b, if_neg (fun hv => hs (Or.inr hv)), hpix1 a b,
      if_neg (fun hhor => hs (Or.inl hhor))]

theorem drawGrid_partial (n : ℕ) (hn : n * 128 + 40 < U32) :
    ∀ (k : ℕ), k ≤ n + 1 → ∀ (img : RgbImage), img.width = n * 128 + 40 →
      img.height = n * 128 + 40 →
      ∃ img2, List.foldlM (drawGridStep n) img (List.range k) = some img2 ∧
        img2.width = img.width ∧ img2.height = img.height ∧
        ∀ a b, (gridUpTo k n a b → img2.pix a b = lineColor) ∧
          (¬ gridUpTo k n a b → img2.pix a b = img.pix a b) := by
  intro k
  induction k with
  | zero =>
    intro _ img hw hh
    refine ⟨img, rfl, rfl, rfl, ?_⟩
    intro a b
    constructor
    · intro hs
      obtain ⟨i, hik, _⟩ := hs
      exact absurd hik (Nat.not_lt_zero i)
    · intro _; rfl
  | succ k ih =>
    intro hk img hw hh
    obtain ⟨img1, heq1, hw1, hh1, hpix1⟩ := ih (by omega) img hw hh
    rw [List.range_succ, List.foldlM_append, heq1]
    simp only [Option.bind_eq_bind, Option.some_bind]
    obtain ⟨img2, heq2, hw2, hh2, hpix2⟩ := drawGridStep_eq n k hn (by omega)
      img1 (by omega) (by omega)
    rw [List.foldlM_cons, heq2]
    simp only [Option.bind_eq_bind, Option.some_bind, List.foldlM_nil]
    refine ⟨img2, rfl, by omega, by omega, ?_⟩
    intro a b
    constructor
    · intro hs
      obtain ⟨i, hik, hstep⟩ := hs
      by_cases hsk : stepOn n k a b
      · exact (hpix2 a b).1 hsk
      · have hik2 : i < k := by
          rcases Nat.lt_succ_iff_lt_or_eq.mp hik with h | h
          · exact h
          · exact absurd (h ▸ hstep) hsk
        rw [(hpix2 a b).2 hsk]
        exact (hpix1 a b).1 ⟨i, hik2, hstep⟩
    · intro hs
      have hsk : ¬ stepOn n k a b := fun h => hs ⟨k, Nat.lt_succ_self k, h⟩
      rw [(hpix2 a b).2 hsk]
      exact (hpix1 a b).2 fun hup =>
        hs ⟨hup.choose, Nat.lt_succ_of_lt hup.choose_spec.1, hup.choose_spec.2⟩

theorem gridImage_eq (n : ℕ) (hnU : n * 128 + 40 < U32) :
    ∃ img, gridImage n = some img ∧ img.width = n * 128 + 40 ∧
      img.height = n * 128 + 40 ∧
      ∀ a b, (isOnGridLine n a b → img.pix a b = lineColor) ∧
        (¬ isOnGridLine n a b → img.pix a b = bgColor) := by
  have hU : U32 = 4294967296 := rfl
  have e1 : u32 (n * 128) = n * 128 := u32_eq (by omega)
  have e2 : u32 (20 * 2) = 40 := u32_eq (by omega)
  have hiw : imgWidth n = n * 128 + 40 := by
    rw [imgWidth, e1, e2]
    exact u32_eq hnU
  obtain ⟨img2, heq, hw, hh, hpix⟩ := drawGrid_partial n hnU (n + 1)
    (le_refl (n + 1)) (mkImage (imgWidth n) (imgWidth n) bgColor)
    (by rw [mkImage]; exact hiw) (by rw [mkImage]; exact hiw)
  refine ⟨img2, ?_, ?_, ?_, ?_⟩
  · rw [gridImage, drawGrid]
    exact heq
  · rw [hw, mkImage]
    exact hiw
  · rw [hh, mkImage]
    exact hiw
  · intro a b
    constructor
    · intro hs
      obtain ⟨i, hi, hstep⟩ := hs
      exact (hpix a b).1 ⟨i, Nat.lt_succ_of_le hi, hstep⟩
    · intro hs
      have := (hpix a b).2 fun hup =>
        hs ⟨hup.choose, Nat.lt_succ_iff.mp hup.choose_spec.1,
          hup.choose_spec.2⟩
      rw [this, mkImage]

/-- C8 (amended): for every board size `n` with `1 ≤ n` and `n ≤ 33554431`
(so that the `u32` buffer arithmetic does not wrap), the grid stage of
`render_board_to_png` produces a buffer of exactly `n*128 + 2*20` pixels in
each dimension in which a pixel carries the foreground line color exactly
when it lies on one of the `n+1` horizontal or `n+1` vertical single-pixel
grid lines at offsets `padding + i*cell_px` (`i = 0..n`) spanning the grid
area, and every other pixel keeps the background color.  At `n = 5` this is a
680-by-680 buffer with 6 horizontal and 6 vertical lines at multiples of 128
offset by 20. -/
theorem c8_grid_lines (n : ℕ) (h1 : 1 ≤ n) (hn : n ≤ 33554431) :
    ∃ img, gridImage n = some img ∧ img.width = n * 128 + 40 ∧
      img.height = n * 128 + 40 ∧
      ∀ a b, (isOnGridLine n a b → img.pix a b = lineColor) ∧
        (¬ isOnGridLine n a b → img.pix a b = bgColor) := by
  have hU : U32 = 4294967296 := rfl
  exact gridImage_eq n (by omega)

/-- Witness for C8 at the default board size 5: a 680-by-680 buffer with the
6+6 grid lines characterized exactly. -/
theorem c8_grid_lines_witness :
    (1 ≤ 5 ∧ 5 ≤ 33554431) ∧
      ∃ img, gridImage 5 = some img ∧ img.width = 5 * 128 + 40 ∧
        img.height = 5 * 128 + 40 ∧
        ∀ a b, (isOnGridLine 5 a b → img.pix a b = lineColor) ∧
          (¬ isOnGridLine 5 a b → img.pix a b = bgColor) :=
  ⟨⟨by decide, by decide⟩, c8_grid_lines 5 (by decide) (by decide)⟩

theorem drawGridStep_wrap (img : RgbImage) (i : ℕ) :
    drawGridStep 33554432 img i = some img := by
  have e1 : u32 (33554432 * 128) = 0 := by decide
  have e2 : u32 (0 + u32 (20 * 2)) = 40 := by decide
  have e3 : u32 (20 + 0) - 20 = 0 := by decide
  simp only [drawGridStep, e1, e2, e3]
  by_cases hg : u32 (20 + u32 (i * 128)) < 40
  · rw [if_pos hg]
    have hH : drawHRun img (u32 (20 + u32 (i * 128))) 20 0 lineColor =
        some img := rfl
    rw [hH, Option.some_bind, if_pos hg]
    rfl
  · rw [if_neg hg, Option.some_bind, if_neg hg]

theorem foldlM_gridStep_wrap :
    ∀ (k : ℕ) (img : RgbImage),
      List.foldlM (drawGridStep 33554432) img (List.range k) = some img := by
  intro k
  induction k with
  | zero => intro img; rfl
  | succ k ih =>
    intro img
    rw [List.range_succ, List.foldlM_append, ih]
    simp only [Option.bind_eq_bind, Option.some_bind, List.foldlM_cons,
      drawGridStep_wrap, List.foldlM_nil]
    rfl

/-- Counterexample to C8 as stated for all `n ≥ 1`: at `n = 33554432` the
`u32` computation `n * 128` wraps to 0, so the allocated buffer is 40-by-40
(not `(n*128+40)` wide) and the grid-line runs have length 0 — the pixel
`(148, 20)`, which lies on the claimed grid line `i = 1`, keeps the
background color. -/
theorem c8_grid_lines_cex :
    gridImage 33554432 = some (mkImage 40 40 bgColor) ∧
      (mkImage 40 40 bgColor).width ≠ 33554432 * 128 + 40 ∧
      isOnGridLine 33554432 148 20 ∧
      (mkImage 40 40 bgColor).pix 148 20 ≠ lineColor := by
  refine ⟨?_, by decide, ?_, by decide⟩
  · have hiw : imgWidth 33554432 = 40 := by decide
    rw [gridImage, drawGrid, hiw]
    exact foldlM_gridStep_wrap (33554432 + 1) (mkImage 40 40 bgColor)
  · refine ⟨0, by norm_num, Or.inl ?_⟩
    norm_num

theorem draw_wrapped_total (fm : FontModel) (img : RgbImage) (text : String)
    (left top max_w max_h : ℕ) (color : Rgb) :
    ∃ img2, draw_wrapped fm img text left top max_w max_h color = some img2 ∧
      img2.width = img.width ∧ img2.height = img.height := by
  unfold draw_wrapped
  generalize drawWrappedLines fm.ww fm.lineHeight (max_w : ℚ) (max_h : ℚ)
    text = ls
  induction ls generalizing img with
  | nil => exact ⟨img, rfl, rfl, rfl⟩
  | cons l ls ih =>
    rw [List.foldlM_cons]
    obtain ⟨img1, heq1, hw1, hh1⟩ := draw_line_total img
      (fm.glyphsOf (lineText l.1) (l.2 + fm.ascent)) left top color
    rw [heq1]
    simp only [Option.bind_eq_bind, Option.some_bind]
    obtain ⟨img2, heq2, hw2, hh2⟩ := ih img1
    exact ⟨img2, heq2, by omega, by omega⟩

theorem cellStep_some (fm : FontModel) (elements : List String) (n : ℕ)
    (hn : n ≤ 65535) (hlen : elements.length = n * n) (img : RgbImage)
    (rc : ℕ × ℕ) (hr : rc.1 < n) (hc : rc.2 < n) :
    ∃ img2, cellStep fm elements n img rc = some img2 ∧
      img2.width = img.width ∧ img2.height = img.height := by
  have hU : U32 = 4294967296 := rfl
  have hnn : n * n < U32 := by nlinarith [Nat.mul_le_mul hn hn]
  have hrn : rc.1 * n + rc.2 < n * n := by
    calc rc.1 * n + rc.2 < rc.1 * n + n := by omega
      _ = (rc.1 + 1) * n := by ring
      _ ≤ n * n := Nat.mul_le_mul_right n hr
  have e1 : u32 (rc.1 * n) = rc.1 * n := u32_eq (by omega)
  have e2 : u32 (rc.1 * n + rc.2) = rc.1 * n + rc.2 := u32_eq (by omega)
  have hidx : rc.1 * n + rc.2 < elements.length := by omega
  obtain ⟨content, hcontent⟩ : ∃ c, elements.get? (rc.1 * n + rc.2) = some c :=
    ⟨elements.get ⟨rc.1 * n + rc.2, hidx⟩, List.get?_eq_get hidx⟩
  simp only [cellStep, e1, e2, hcontent, Option.some_bind]
  exact draw_wrapped_total fm img content _ _ _ _ txtColor

theorem boardCells_mem (n : ℕ) (p : ℕ × ℕ) (hp : p ∈ boardCells n) :
    p.1 < n ∧ p.2 < n := by
  unfold boardCells at hp
  obtain ⟨row, hrow, hp2⟩ := List.mem_flatMap.mp hp
  obtain ⟨col, hcol, hpc⟩ := List.mem_map.mp hp2
  rw [← hpc]
  exact ⟨List.mem_range.mp hrow, List.mem_range.mp hcol⟩

theorem foldlM_cells_total (fm : FontModel) (elements : List String) (n : ℕ)
    (hn : n ≤ 65535) (hlen : elements.length = n * n) :
    ∀ (ps : List (ℕ × ℕ)), (∀ p ∈ ps, p.1 < n ∧ p.2 < n) →
      ∀ img, ∃ img2,
        List.foldlM (cellStep fm elements n) img ps = some img2 ∧
        img2.width = img.width ∧ img2.height = img.height := by
  intro ps
  induction ps with
  | nil => intro _ img; exact ⟨img, rfl, rfl, rfl⟩
  | cons p ps ih =>
    intro hps img
    rw [List.foldlM_cons]
    obtain ⟨hr, hc⟩ := hps p (List.mem_cons_self p ps)
    obtain ⟨img1, heq1, hw1, hh1⟩ := cellStep_some fm elements n hn hlen img p
      hr hc
    rw [heq1]
    simp only [Option.bind_eq_bind, Option.some_bind]
    obtain ⟨img2, heq2, hw2, hh2⟩ :=
      ih (fun q hq => hps q (List.mem_cons_of_mem p hq)) img1
    exact ⟨img2, heq2, by omega, by omega⟩

/-- C5 (amended): for every board size `n` with `1 ≤ n ≤ 65535` (so the `u32`
computation `n*n` does not wrap) and every sequence of exactly `n²` strings,
once the font loads, `render_board_to_png` succeeds — no panic, no error —
and produces a pixel buffer of exactly `n*cell_px + 2*padding = n*128 + 40`
pixels in each dimension (680-by-680 at `n = 5`). -/
theorem c5_render_buffer_size (fontBytes : FontBytes)
    (parseFont : FontBytes → Option FontModel) (fm : FontModel)
    (elements : List String) (n : ℕ) (h1 : 1 ≤ n) (hn : n ≤ 65535)
    (hlen : elements.length = n * n) (hparse : parseFont fontBytes = some fm) :
    ∃ img, render_board_to_png (some fontBytes) parseFont elements n =
        .ok img ∧
      img.width = n * 128 + 40 ∧ img.height = n * 128 + 40 := by
  have hU : U32 = 4294967296 := rfl
  have hnn : n * n < U32 := by nlinarith [Nat.mul_le_mul hn hn]
  have hassert : u32 (n * n) = elements.length := by rw [u32_eq hnn, hlen]
  obtain ⟨img0, hg, hgw, hgh, _⟩ := gridImage_eq n (by omega)
  obtain ⟨imgF, hF, hFw, hFh⟩ := foldlM_cells_total fm elements n hn hlen
    (boardCells n) (boardCells_mem n) img0
  simp only [render_board_to_png, hassert, ne_eq, not_true_eq_false,
    if_false, hg, hparse, hF]
  exact ⟨imgF, rfl, by omega, by omega⟩

/-- Witness for C5: a 5-by-5 board with 25 strings renders to a 680-by-680
buffer. -/
theorem c5_render_buffer_size_witness :
    (List.replicate 25 "x").length = 5 * 5 ∧
      ∃ img, render_board_to_png (some fbTriv) parseTriv
          (List.replicate 25 "x") 5 = .ok img ∧
        img.width = 5 * 128 + 40 ∧ img.height = 5 * 128 + 40 :=
  ⟨by simp, c5_render_buffer_size fbTriv parseTriv fmTriv
    (List.replicate 25 "x") 5 (by decide) (by decide) (by simp) rfl⟩

/-- Counterexample to C5 as stated for all `n ≥ 1`: at `n = 65536` with
exactly `n² = 2^32` strings, the `u32` product `n*n` wraps to 0, the element
count check spuriously fails, and the render aborts with `DimensionMismatch`
instead of producing a buffer. -/
theorem c5_render_buffer_size_cex :
    (List.replicate (65536 * 65536) "").length = 65536 * 65536 ∧
      render_board_to_png (some fbTriv) parseTriv
        (List.replicate (65536 * 65536) "") 65536 =
        .error .DimensionMismatch := by
  constructor
  · exact List.length_replicate (65536 * 65536) ""
  · have hc : u32 (65536 * 65536) ≠
        (List.replicate (65536 * 65536) "").length := by
      rw [List.length_replicate]
      decide
    unfold render_board_to_png
    rw [if_pos hc]

/-- C2 (amended): for every board size `n ≤ 65535` (so the `u32` product
`n*n` does not wrap), every font source and every string sequence whose
length differs from `n²`, the render fails with `DimensionMismatch`
immediately — before any buffer is allocated, any grid drawn, any font
loaded or any cell rendered. -/
theorem c2_dimension_mismatch (fontData : Option FontBytes)
    (parseFont : FontBytes → Option FontModel) (elements : List String)
    (n : ℕ) (hn : n ≤ 65535) (hlen : elements.length ≠ n * n) :
    render_board_to_png fontData parseFont elements n =
      .error .DimensionMismatch := by
  have hU : U32 = 4294967296 := rfl
  have hnn : n * n < U32 := by nlinarith [Nat.mul_le_mul hn hn]
  simp only [render_board_to_png]
  rw [if_pos]
  rw [u32_eq hnn]
  exact fun h => hlen h.symm

/-- Witness for C2: one string on a 2-by-2 board (1 ≠ 4) is rejected with
`DimensionMismatch`. -/
theorem c2_dimension_mismatch_witness :
    (["a"] : List String).length ≠ 2 * 2 ∧
      render_board_to_png none parseNone ["a"] 2 =
        .error .DimensionMismatch :=
  ⟨by decide, c2_dimension_mismatch none parseNone ["a"] 2 (by decide)
    (by decide)⟩

/-- Counterexample to C2 as stated for all `n`: at `n = 65536` with an empty
element list (`0 ≠ 65536²`), the wrapped `u32` product `n*n` is 0, the
assertion spuriously passes, the buffer is allocated and the grid drawn, and
the render proceeds to font loading — failing here with `FontNotFound`, not
`DimensionMismatch`. -/
theorem c2_dimension_mismatch_cex :
    (([] : List String).length ≠ 65536 * 65536) ∧
      render_board_to_png none parseNone [] 65536 = .error .FontNotFound ∧
      render_board_to_png none parseNone [] 65536 ≠
        .error .DimensionMismatch := by
  have hU : U32 = 4294967296 := rfl
  have hren : render_board_to_png none parseNone [] 65536 =
      .error .FontNotFound := by
    obtain ⟨img0, hg, _, _, _⟩ := gridImage_eq 65536 (by omega)
    simp only [render_board_to_png, hg]
    rw [if_neg (by decide)]
  refine ⟨by decide, hren, ?_⟩
  rw [hren]
  simp

/-- C1 (amended): the font override takes precedence only when reading the
file succeeds.  With `BINGO_FONT_PATH` set, `find_system_font_data` returns
exactly the override file's bytes whenever `fs::read` succeeds — discovery is
never consulted, even if the bytes are not a font (the render then fails at
font parsing) — but when the read fails, the result is exactly the discovery
result: host discovery IS attempted as a fallback. -/
theorem c1_font_override_precedence (path : String)
    (fsRead : String → Option FontBytes) (discovery : Option FontBytes) :
    find_system_font_data (some path) fsRead discovery =
      (fsRead path).or discovery := by
  simp only [find_system_font_data]
  cases h : fsRead path with
  | none => simp [h]
  | some bytes => simp [h]

/-- Counterexample to C1 as stated: with the override set to an unreadable
path (`fs::read` fails), `find_system_font_data` does not fail — it falls
back to discovery and returns the discovered bytes. -/
theorem c1_font_override_precedence_cex :
    find_system_font_data (some "missing") (fun _ => none)
        (some ([42] : List ℕ)) = some ([42] : List ℕ) ∧
      find_system_font_data (some "missing") (fun _ => none)
        (some ([42] : List ℕ)) ≠ none :=
  ⟨rfl, Option.some_ne_none _⟩

/-- Witness for C9: blending a fully covered 1-by-1 glyph into a 1-by-1 black
buffer with white color replaces the pixel by the blend value. -/
theorem c9_glyph_pixel_blend_witness :
    (0 < glyphOne.bbW ∧ 0 < glyphOne.bbH ∧
      0 ≤ (0 : ℤ) + (0 : ℕ) + glyphOne.bbMinX ∧
      0 ≤ (0 : ℤ) + (0 : ℕ) + glyphOne.bbMinY ∧
      ((0 : ℤ) + (0 : ℕ) + glyphOne.bbMinX).toNat < imgOne.width ∧
      ((0 : ℤ) + (0 : ℕ) + glyphOne.bbMinY).toNat < imgOne.height) ∧
    ∃ img2, drawGlyph imgOne glyphOne 0 0 ⟨255, 255, 255⟩ = some img2 ∧
      img2.pix ((0 : ℤ) + (0 : ℕ) + glyphOne.bbMinX).toNat
          ((0 : ℤ) + (0 : ℕ) + glyphOne.bbMinY).toNat =
        if glyphOne.cov 0 0 < 1/20 then
          imgOne.pix ((0 : ℤ) + (0 : ℕ) + glyphOne.bbMinX).toNat
            ((0 : ℤ) + (0 : ℕ) + glyphOne.bbMinY).toNat
        else
          blendRgb
            (imgOne.pix ((0 : ℤ) + (0 : ℕ) + glyphOne.bbMinX).toNat
              ((0 : ℤ) + (0 : ℕ) + glyphOne.bbMinY).toNat)
            ⟨255, 255, 255⟩ (glyphOne.cov 0 0) :=
  ⟨⟨by decide, by decide, by decide, by decide, by decide, by decide⟩,
    c9_glyph_pixel_blend imgOne glyphOne 0 0 ⟨255, 255, 255⟩ 0 0 (by decide)
      (by decide) (by decide) (by decide) (by decide) (by decide)⟩
